import Mathlib

/-!
Verification of the sequence/iterator and registry components of the
uRustBook samples.  Each Rust type is embedded shallowly: a cursor is a
structure holding the fields of the Rust struct, and `next` is a pure
function from the cursor state to the produced `Option` value together
with the updated state.  `u32` arithmetic is modelled as `Nat` reduced
modulo `2 ^ 32` at each operation (release-mode wrapping semantics).
-/

/-- The modulus of `u32` arithmetic. -/
def u32Mod : Nat := 2 ^ 32

/-- `struct Counter { count: u32, max: u32 }` from `Q8_Iterators/iterator.rs`. -/
structure Counter where
  count : Nat
  max : Nat
deriving DecidableEq, Repr

/-- `Counter::new(max)` — `Counter { count: 0, max }`.  The Rust argument is a
`u32`, so theorems about `new` carry the hypothesis `max < u32Mod` where the
bound matters. -/
def Counter.new (max : Nat) : Counter := ⟨0, max⟩

/-- `Counter::next`: `self.count += 1; if self.count < self.max { Some(self.count) } else { None }`.
The increment is `u32` wrapping; `(c.count + 1) % u32Mod` is the value of
`self.count` after the increment. -/
def Counter.next (c : Counter) : Option Nat × Counter :=
  if (c.count + 1) % u32Mod < c.max then
    (some ((c.count + 1) % u32Mod), ⟨(c.count + 1) % u32Mod, c.max⟩)
  else
    (none, ⟨(c.count + 1) % u32Mod, c.max⟩)

/-- The state left behind by one `Counter::next` call. -/
def Counter.nextState (c : Counter) : Counter := (Counter.next c).2

/-- The outputs of `n` successive `Counter::next` calls starting from `c`. -/
def runCounter (c : Counter) : Nat → List (Option Nat)
  | 0 => []
  | n + 1 => (Counter.next c).1 :: runCounter (Counter.next c).2 n

@[simp] theorem Counter.nextState_eq (c : Counter) :
    Counter.nextState c = ⟨(c.count + 1) % u32Mod, c.max⟩ := by
  unfold Counter.nextState Counter.next
  split <;> rfl

theorem Counter.next_fst (c : Counter) :
    (Counter.next c).1 =
      if (c.count + 1) % u32Mod < c.max then some ((c.count + 1) % u32Mod) else none := by
  unfold Counter.next
  split <;> simp [*]

/-- After `k` calls the count is the wrapped sum, as long as it started reduced. -/
theorem Counter.count_after_iterate (k : Nat) (c : Counter) (h : c.count < u32Mod) :
    Counter.nextState^[k] c = ⟨(c.count + k) % u32Mod, c.max⟩ := by
  induction k generalizing c with
  | zero => simp [Nat.mod_eq_of_lt h]
  | succ k ih =>
      rw [Function.iterate_succ_apply, Counter.nextState_eq]
      rw [ih ⟨(c.count + 1) % u32Mod, c.max⟩ (Nat.mod_lt _ (by decide))]
      have h2 : c.count + 1 + k = c.count + (k + 1) := by omega
      simp only [Nat.mod_add_mod, h2]

/-- Below the wrap, `runCounter` yields `count+1, count+2, …` gated by `max`. -/
theorem runCounter_formula (n : Nat) (c : Counter) (h : c.count + n < u32Mod) :
    runCounter c n =
      (List.range n).map
        (fun i => if c.count + i + 1 < c.max then some (c.count + i + 1) else none) := by
  induction n generalizing c with
  | zero => simp [runCounter]
  | succ n ih =>
      have h1 : c.count + 1 < u32Mod := by omega
      have hm : (c.count + 1) % u32Mod = c.count + 1 := Nat.mod_eq_of_lt h1
      have hst : (Counter.next c).2 = ⟨c.count + 1, c.max⟩ := by
        have := Counter.nextState_eq c
        rw [Counter.nextState] at this
        rw [this, hm]
      rw [runCounter, Counter.next_fst, hm, hst, ih ⟨c.count + 1, c.max⟩ (by simp; omega)]
      rw [List.range_succ_eq_map]
      simp only [List.map_cons, List.map_map]
      congr 1
      apply List.map_congr_left
      intro i hi
      have e : c.count + 1 + i + 1 = c.count + (i + 1) + 1 := by omega
      simp only [Function.comp_apply, Nat.succ_eq_add_one, e]

/-- `struct MyVectorIter<'a, T> { data: &'a [T], index: usize }` from
`Q8_Iterators/iterator2.rs`. -/
structure MyVectorIter (α : Type) where
  data : List α
  index : Nat
deriving DecidableEq, Repr

/-- `MyVectorIter::next`: if `index < data.len()` yield `data[index]` and advance
`index`; otherwise return `None` leaving the state untouched. -/
def MyVectorIter.next (it : MyVectorIter α) : Option α × MyVectorIter α :=
  if it.index < it.data.length then
    (it.data.get? it.index, ⟨it.data, it.index + 1⟩)
  else
    (none, it)

/-- The state left behind by one `MyVectorIter::next` call. -/
def MyVectorIter.nextState (it : MyVectorIter α) : MyVectorIter α :=
  (MyVectorIter.next it).2

theorem MyVectorIter.next_of_exhausted {it : MyVectorIter α}
    (h : (MyVectorIter.next it).1 = none) : MyVectorIter.next it = (none, it) := by
  unfold MyVectorIter.next at h ⊢
  split at h
  · next hlt =>
      exfalso
      rw [List.get?_eq_none] at h
      omega
  · next hge => rw [if_neg hge]

/-- C2 counterexample: `Counter::new(2)` yields `Some(1)` and then `None` on the
second call, not `Some(2)` as the claim ("yields 1, 2, ..., N") requires: the
increment happens before the strict comparison `count < max`, so `max` itself is
never produced. -/
theorem counter_new_two_missing_last :
    runCounter (Counter.new 2) 2 ≠ [some 1, some 2] ∧
    runCounter (Counter.new 2) 2 = [some 1, none] := by
  constructor
  · decide
  · decide

/-- C2 (amended): for `0 < N < 2^32`, the cursor `Counter::new(N)` yields the
values `1, 2, ..., N-1` in increasing order and then signals completion
(`None`): the value `N` itself is never produced. -/
theorem counter_counts_to_pred_max (N : Nat) (h0 : 0 < N) (hN : N < u32Mod) :
    runCounter (Counter.new N) N =
      ((List.range (N - 1)).map (fun i => some (i + 1))) ++ [none] := by
  have hf := runCounter_formula N (Counter.new N) (by simpa [Counter.new] using hN)
  simp only [Counter.new] at hf
  unfold Counter.new
  rw [hf]
  obtain ⟨m, rfl⟩ : ∃ m, N = m + 1 := ⟨N - 1, by omega⟩
  rw [List.range_succ, List.map_append, Nat.add_sub_cancel]
  congr 1
  · apply List.map_congr_left
    intro i hi
    rw [List.mem_range] at hi
    have hcond : 0 + i + 1 < m + 1 := by omega
    rw [if_pos hcond]
    congr 1
    omega
  · have hcond : ¬ (0 + m + 1 < m + 1) := by omega
    simp [hcond]

/-- Witness for the amended C2 theorem at `N = 5`. -/
theorem counter_counts_to_pred_max_witness :
    0 < 5 ∧ 5 < u32Mod ∧
      runCounter (Counter.new 5) 5 =
        ((List.range (5 - 1)).map (fun i => some (i + 1))) ++ [none] :=
  ⟨by decide, by decide, counter_counts_to_pred_max 5 (by decide) (by decide)⟩

/-- C1 counterexample: after `Counter::new(1)` returns `None` on its first call,
it does not return `None` forever: the `u32` counter keeps being incremented
(wrapping) on every call, so `2^32 - 2` further calls after the first `None`
bring the count to `2^32 - 1` and the next call wraps it to `0`, which is
`< max`, so the cursor resurrects and yields `Some(0)`. -/
theorem counter_resurrects_after_wrap :
    (Counter.next (Counter.new 1)).1 = none ∧
    (Counter.next (Counter.nextState^[u32Mod - 2] (Counter.next (Counter.new 1)).2)).1
      = some 0 := by
  constructor
  · decide
  · have hst : (Counter.next (Counter.new 1)).2 = ⟨1, 1⟩ := by decide
    rw [hst, Counter.count_after_iterate (u32Mod - 2) ⟨1, 1⟩ (by decide), Counter.next_fst]
    norm_num [u32Mod]

/-- C1 (amended): once an exhausted cursor has signalled `Done`, subsequent
calls keep signalling `Done` — unconditionally for `MyVectorIter` (its `next`
leaves the state untouched when out of bounds), and for `Counter` only while
the wrapping `u32` count stays below `2^32` (fewer than `2^32 - count - 1`
further calls); at the wrap the `Counter` cursor resurrects. -/
theorem exhaustion_idem_amended (α : Type) :
    (∀ it : MyVectorIter α, (MyVectorIter.next it).1 = none →
      ∀ k, (MyVectorIter.next (MyVectorIter.nextState^[k] it)).1 = none) ∧
    (∀ (c : Counter) (k : Nat), (Counter.next c).1 = none →
      (Counter.next c).2.count + k + 1 < u32Mod →
      (Counter.next (Counter.nextState^[k] (Counter.next c).2)).1 = none) := by
  constructor
  · intro it h k
    have hfix : MyVectorIter.nextState it = it := by
      unfold MyVectorIter.nextState
      rw [MyVectorIter.next_of_exhausted h]
    rw [Function.iterate_fixed hfix k, MyVectorIter.next_of_exhausted h]
  · intro c k h hk
    have h2 : (Counter.next c).2 = ⟨(c.count + 1) % u32Mod, c.max⟩ := Counter.nextState_eq c
    rw [h2] at hk ⊢
    dsimp only at hk
    have hge : c.max ≤ (c.count + 1) % u32Mod := by
      rw [Counter.next_fst] at h
      by_contra hcon
      push_neg at hcon
      rw [if_pos hcon] at h
      exact Option.noConfusion h
    rw [Counter.count_after_iterate k _ (Nat.mod_lt _ (by decide))]
    rw [Counter.next_fst]
    dsimp only
    have hm1 : ((c.count + 1) % u32Mod + k) % u32Mod = (c.count + 1) % u32Mod + k :=
      Nat.mod_eq_of_lt (by omega)
    rw [hm1]
    have hm2 : ((c.count + 1) % u32Mod + k + 1) % u32Mod
        = (c.count + 1) % u32Mod + k + 1 := Nat.mod_eq_of_lt (by omega)
    rw [hm2, if_neg (by omega)]

/-- Witness for the amended C1 theorem: an exhausted `MyVectorIter` over
`[1, 2]` stays exhausted after 3 further calls, and an exhausted
`Counter::new(1)` still answers `None` on the 6th call after exhaustion. -/
theorem exhaustion_idem_amended_witness :
    ((MyVectorIter.next (⟨[1, 2], 2⟩ : MyVectorIter Nat)).1 = none) ∧
    ((MyVectorIter.next (MyVectorIter.nextState^[3] (⟨[1, 2], 2⟩ : MyVectorIter Nat))).1
      = none) ∧
    ((Counter.next (Counter.new 1)).1 = none) ∧
    ((Counter.next (Counter.new 1)).2.count + 5 + 1 < u32Mod) ∧
    ((Counter.next (Counter.nextState^[5] (Counter.next (Counter.new 1)).2)).1 = none) :=
  ⟨by decide, (exhaustion_idem_amended Nat).1 ⟨[1, 2], 2⟩ (by decide) 3,
   by decide, by decide,
   (exhaustion_idem_amended Nat).2 (Counter.new 1) 5 (by decide) (by decide)⟩

/-- `struct FullVector<T> { data: Vec<T> }` from `Q8_Iterators/iterator2.rs`. -/
structure FullVector (α : Type) where
  data : List α
deriving DecidableEq, Repr

/-- `struct FullVectorIter<'a, T> { data: &'a Vec<T>, index: usize }`. -/
structure FullVectorIter (α : Type) where
  data : List α
  index : Nat
deriving DecidableEq, Repr

/-- `FullVector::new()`. -/
def FullVector.new : FullVector α := ⟨[]⟩

/-- `FullVector::push(value)` — `Vec::push` appends at the end. -/
def FullVector.push (v : FullVector α) (x : α) : FullVector α := ⟨v.data ++ [x]⟩

/-- `FullVector::iter()` — borrows the data and starts at index 0. -/
def FullVector.iter (v : FullVector α) : FullVectorIter α := ⟨v.data, 0⟩

/-- `FullVectorIter::next` (same body as `MyVectorIter::next`). -/
def FullVectorIter.next (it : FullVectorIter α) : Option α × FullVectorIter α :=
  if it.index < it.data.length then
    (it.data.get? it.index, ⟨it.data, it.index + 1⟩)
  else
    (none, it)

/-- The state left behind by one `FullVectorIter::next` call. -/
def FullVectorIter.nextState (it : FullVectorIter α) : FullVectorIter α :=
  (FullVectorIter.next it).2

/-- `ExactSizeIterator::len` for `FullVectorIter`: `self.data.len() - self.index`. -/
def FullVectorIter.len (it : FullVectorIter α) : Nat := it.data.length - it.index

/-- `DoubleEndedIterator::next_back` for `FullVectorIter`: reads
`data[data.len() - 1 - index]` and — unlike `next` — never mutates `index`. -/
def FullVectorIter.next_back (it : FullVectorIter α) : Option α × FullVectorIter α :=
  if it.index < it.data.length then
    (it.data.get? (it.data.length - 1 - it.index), it)
  else
    (none, it)

/-- The state left behind by one `next_back` call. -/
def FullVectorIter.backState (it : FullVectorIter α) : FullVectorIter α :=
  (FullVectorIter.next_back it).2

theorem FullVectorIter.index_after_iterate (k : Nat) (it : FullVectorIter α)
    (h : it.index ≤ it.data.length) :
    FullVectorIter.nextState^[k] it = ⟨it.data, min (it.index + k) it.data.length⟩ := by
  induction k generalizing it with
  | zero =>
      simp only [Function.iterate_zero, id_eq, Nat.add_zero, Nat.min_eq_left h]
  | succ k ih =>
      rw [Function.iterate_succ_apply]
      by_cases hlt : it.index < it.data.length
      · have hstep : FullVectorIter.nextState it = ⟨it.data, it.index + 1⟩ := by
          unfold FullVectorIter.nextState FullVectorIter.next
          rw [if_pos hlt]
        rw [hstep, ih ⟨it.data, it.index + 1⟩ (by dsimp; omega)]
        dsimp only
        congr 1
        omega
      · have hstep : FullVectorIter.nextState it = it := by
          unfold FullVectorIter.nextState FullVectorIter.next
          rw [if_neg hlt]
        rw [hstep, ih it h]
        congr 1
        omega

theorem FullVectorIter.next_isSome_iff (it : FullVectorIter α) :
    ((FullVectorIter.next it).1).isSome ↔ it.index < it.data.length := by
  unfold FullVectorIter.next
  split
  · next hlt => simp [List.get?_eq_get hlt, hlt]
  · next hge => simp [hge]

theorem FullVectorIter.next_none_iff (it : FullVectorIter α) :
    (FullVectorIter.next it).1 = none ↔ it.data.length ≤ it.index := by
  unfold FullVectorIter.next
  split
  · next hlt =>
      simp only [List.get?_eq_none]
  · next hge => simp; omega

/-- C9: `FullVectorIter::next_back` leaves the iterator state (data and index)
completely unchanged on every call, so repeating it any number of times keeps
returning the element at position `data.len() - 1 - index` whenever
`index < data.len()`. -/
theorem next_back_frame (α : Type) (it : FullVectorIter α) (k : Nat) :
    (FullVectorIter.next_back it).2 = it ∧
    FullVectorIter.backState^[k] it = it ∧
    (it.index < it.data.length →
      (FullVectorIter.next_back (FullVectorIter.backState^[k] it)).1
          = it.data.get? (it.data.length - 1 - it.index) ∧
      ((FullVectorIter.next_back it).1).isSome) := by
  have hframe : (FullVectorIter.next_back it).2 = it := by
    unfold FullVectorIter.next_back
    split <;> rfl
  have hfix : FullVectorIter.backState^[k] it = it :=
    Function.iterate_fixed (by unfold FullVectorIter.backState; rw [hframe]) k
  refine ⟨hframe, hfix, fun hlt => ⟨?_, ?_⟩⟩
  · rw [hfix]
    unfold FullVectorIter.next_back
    rw [if_pos hlt]
  · unfold FullVectorIter.next_back
    rw [if_pos hlt]
    have hidx : it.data.length - 1 - it.index < it.data.length := by omega
    simp [List.get?_eq_get hidx, List.getElem?_eq_getElem hidx]

/-- Witness for C9: over `[5, 10, 15]` at index 0, three repeated `next_back`
calls leave the state unchanged and keep answering the last element. -/
theorem next_back_frame_witness :
    ((FullVectorIter.next_back (⟨[5, 10, 15], 0⟩ : FullVectorIter Nat)).2
        = ⟨[5, 10, 15], 0⟩) ∧
    (FullVectorIter.backState^[3] (⟨[5, 10, 15], 0⟩ : FullVectorIter Nat)
        = ⟨[5, 10, 15], 0⟩) ∧
    ((⟨[5, 10, 15], 0⟩ : FullVectorIter Nat).index
        < (⟨[5, 10, 15], 0⟩ : FullVectorIter Nat).data.length) ∧
    ((FullVectorIter.next_back
        (FullVectorIter.backState^[3] (⟨[5, 10, 15], 0⟩ : FullVectorIter Nat))).1
      = (⟨[5, 10, 15], 0⟩ : FullVectorIter Nat).data.get?
          ((⟨[5, 10, 15], 0⟩ : FullVectorIter Nat).data.length - 1
            - (⟨[5, 10, 15], 0⟩ : FullVectorIter Nat).index)) ∧
    ((FullVectorIter.next_back (⟨[5, 10, 15], 0⟩ : FullVectorIter Nat)).1).isSome := by
  have h := next_back_frame Nat ⟨[5, 10, 15], 0⟩ 3
  exact ⟨h.1, h.2.1, by decide, (h.2.2 (by decide)).1, (h.2.2 (by decide)).2⟩

/-- C10: for every `FullVectorIter` state reachable from `FullVector::iter` by
`next` calls, `index ≤ data.len()`; `len()` returns `data.len() - index`, which
is exactly the number of remaining `next` calls that produce a value; each
value-producing `next` call decreases `len()` by one; and `next` returns `None`
precisely when `len()` is zero. -/
theorem full_vector_iter_len_spec (α : Type) (it : FullVectorIter α)
    (hreach : ∃ (fv : FullVector α) (k : Nat),
        it = FullVectorIter.nextState^[k] (FullVector.iter fv)) :
    it.index ≤ it.data.length ∧
    FullVectorIter.len it = it.data.length - it.index ∧
    (∀ j, ((FullVectorIter.next (FullVectorIter.nextState^[j] it)).1).isSome
        ↔ j < FullVectorIter.len it) ∧
    (((FullVectorIter.next it).1).isSome →
      FullVectorIter.len (FullVectorIter.next it).2 + 1 = FullVectorIter.len it) ∧
    ((FullVectorIter.next it).1 = none ↔ FullVectorIter.len it = 0) := by
  obtain ⟨fv, k, rfl⟩ := hreach
  have hit : FullVectorIter.nextState^[k] (FullVector.iter fv)
      = ⟨fv.data, min k fv.data.length⟩ := by
    have h0 : (FullVector.iter fv).index ≤ (FullVector.iter fv).data.length := by
      simp [FullVector.iter]
    rw [FullVectorIter.index_after_iterate k _ h0]
    simp [FullVector.iter]
  rw [hit]
  dsimp only
  refine ⟨by omega, rfl, ?_, ?_, ?_⟩
  · intro j
    have hle : (⟨fv.data, min k fv.data.length⟩ : FullVectorIter α).index
        ≤ (⟨fv.data, min k fv.data.length⟩ : FullVectorIter α).data.length := by
      dsimp only
      omega
    rw [FullVectorIter.index_after_iterate j _ hle, FullVectorIter.next_isSome_iff]
    dsimp only
    unfold FullVectorIter.len
    dsimp only
    omega
  · rw [FullVectorIter.next_isSome_iff]
    dsimp only
    intro hlt
    have hnext : FullVectorIter.next (⟨fv.data, min k fv.data.length⟩ : FullVectorIter α)
        = (fv.data.get? (min k fv.data.length), ⟨fv.data, min k fv.data.length + 1⟩) := by
      unfold FullVectorIter.next
      rw [if_pos hlt]
    rw [hnext]
    unfold FullVectorIter.len
    dsimp only
    omega
  · rw [FullVectorIter.next_none_iff]
    unfold FullVectorIter.len
    dsimp only
    omega

/-- Witness for C10: the state reached after one `next` call on an iterator
over `[5, 10, 15]`. -/
theorem full_vector_iter_len_spec_witness :
    (∃ (fv : FullVector Nat) (k : Nat),
        FullVectorIter.nextState^[1] (FullVector.iter (⟨[5, 10, 15]⟩ : FullVector Nat))
          = FullVectorIter.nextState^[k] (FullVector.iter fv)) ∧
    ((FullVectorIter.nextState^[1]
        (FullVector.iter (⟨[5, 10, 15]⟩ : FullVector Nat))).index
      ≤ (FullVectorIter.nextState^[1]
          (FullVector.iter (⟨[5, 10, 15]⟩ : FullVector Nat))).data.length ∧
    FullVectorIter.len (FullVectorIter.nextState^[1]
        (FullVector.iter (⟨[5, 10, 15]⟩ : FullVector Nat)))
      = (FullVectorIter.nextState^[1]
          (FullVector.iter (⟨[5, 10, 15]⟩ : FullVector Nat))).data.length
        - (FullVectorIter.nextState^[1]
            (FullVector.iter (⟨[5, 10, 15]⟩ : FullVector Nat))).index ∧
    (∀ j, ((FullVectorIter.next (FullVectorIter.nextState^[j]
          (FullVectorIter.nextState^[1]
            (FullVector.iter (⟨[5, 10, 15]⟩ : FullVector Nat))))).1).isSome
        ↔ j < FullVectorIter.len (FullVectorIter.nextState^[1]
            (FullVector.iter (⟨[5, 10, 15]⟩ : FullVector Nat)))) ∧
    (((FullVectorIter.next (FullVectorIter.nextState^[1]
          (FullVector.iter (⟨[5, 10, 15]⟩ : FullVector Nat)))).1).isSome →
      FullVectorIter.len (FullVectorIter.next (FullVectorIter.nextState^[1]
          (FullVector.iter (⟨[5, 10, 15]⟩ : FullVector Nat)))).2 + 1
        = FullVectorIter.len (FullVectorIter.nextState^[1]
            (FullVector.iter (⟨[5, 10, 15]⟩ : FullVector Nat)))) ∧
    ((FullVectorIter.next (FullVectorIter.nextState^[1]
        (FullVector.iter (⟨[5, 10, 15]⟩ : FullVector Nat)))).1 = none
      ↔ FullVectorIter.len (FullVectorIter.nextState^[1]
          (FullVector.iter (⟨[5, 10, 15]⟩ : FullVector Nat))) = 0)) :=
  ⟨⟨⟨[5, 10, 15]⟩, 1, rfl⟩,
   full_vector_iter_len_spec Nat _ ⟨⟨[5, 10, 15]⟩, 1, rfl⟩⟩

namespace RustSeq

/-- Modelled from the spec: `map` is not in src/ (only its callers are); per
§4.1 it transforms each produced element, one at a time, preserving order. -/
def map (f : α → β) : List α → List β
  | [] => []
  | x :: xs => f x :: map f xs

/-- Modelled from the spec: `collect` is not in src/; it drives the cursor to
completion and materializes the produced elements in order.  Finite sequences
are already modelled as the list of their productions, so collecting is the
identity conversion. -/
def collect (l : List α) : List α := l

/-- Modelled from the spec: `fold(init, f)` is not in src/; deterministic
left-to-right accumulation, returning the accumulator after exhaustion and
`init` unchanged on an empty sequence. -/
def fold : β → (β → α → β) → List α → β
  | init, _, [] => init
  | init, f, x :: xs => fold (f init x) f xs

/-- Modelled from the spec: `reduce(f)` is not in src/; like fold but seeds the
accumulator with the first produced element, returning "no result" (`none`) on
an empty sequence. -/
def reduce (f : α → α → α) : List α → Option α
  | [] => none
  | x :: xs => some (fold x f xs)

/-- Modelled from the spec: the inclusive integer range `a..=b`, empty when
`a > b` (as in the repo's `(1..=0)` demo). -/
def rangeInclusive (a b : Nat) : List Nat :=
  (List.range (b + 1 - a)).map (a + ·)

/-- Modelled from the spec: the filter stage of the lazy chain
`(0..).filter(p)` over the unbounded counting source, whose cursor state is
the next value `s` (`produce_next` returns `(s, s+1)` and never `Done`).  The
filter pulls from the source until the predicate holds; the Rust loop is
unbounded, so the search is given explicit `fuel` (number of source pulls it
may still make), `none` meaning the budget ran out. -/
def filterNext (p : Nat → Bool) : Nat → Nat → Option (Nat × Nat)
  | 0, _ => none
  | fuel + 1, s => if p s then some (s, s + 1) else filterNext p fuel (s + 1)

/-- Modelled from the spec: driving `(0..).filter(p).map(f).take(k)` to
completion.  Pulls `k` filtered elements, maps each, and returns the produced
list together with the final source state — i.e. exactly how many elements of
the infinite source were ever produced (laziness). -/
def chainRun (p : Nat → Bool) (f : Nat → Nat) (fuel : Nat) :
    Nat → Nat → Option (List Nat × Nat)
  | 0, s => some ([], s)
  | k + 1, s =>
    match filterNext p fuel s with
    | none => none
    | some (v, s') =>
      match chainRun p f fuel k s' with
      | none => none
      | some (out, sf) => some (f v :: out, sf)

theorem filterNext_fuel_mono {p : Nat → Bool} {fuel s : Nat} {r : Nat × Nat}
    (h : filterNext p fuel s = some r) : filterNext p (fuel + 1) s = some r := by
  induction fuel generalizing s with
  | zero => exact Option.noConfusion h
  | succ fuel ih =>
      rw [filterNext] at h ⊢
      split at h
      · next hp => rw [if_pos hp]; exact h
      · next hp => rw [if_neg hp]; exact ih h

theorem chainRun_fuel_mono {p : Nat → Bool} {f : Nat → Nat} {fuel k s : Nat}
    {r : List Nat × Nat} (h : chainRun p f fuel k s = some r) :
    chainRun p f (fuel + 1) k s = some r := by
  induction k generalizing s r with
  | zero => exact h
  | succ k ih =>
      rw [chainRun] at h ⊢
      cases hf : filterNext p fuel s with
      | none => rw [hf] at h; exact Option.noConfusion h
      | some vs =>
          obtain ⟨v, s'⟩ := vs
          rw [hf] at h
          rw [filterNext_fuel_mono hf]
          dsimp only at h ⊢
          cases hc : chainRun p f fuel k s' with
          | none => rw [hc] at h; exact Option.noConfusion h
          | some out =>
              rw [hc] at h
              rw [ih hc]
              exact h

end RustSeq

/-- C3: the lazy chain `(0..).filter(|x| x % 2 == 0).map(|x| x * x).take(5)`
terminates and yields exactly `[0, 4, 16, 36, 64]` in that order, driving the
pipeline only finitely many steps: any filter search budget of at least 2
source pulls per element completes the run, and only the first 9 elements of
the infinite source are ever produced (final source state 9). -/
theorem lazy_chain_take_five (extra : Nat) :
    RustSeq.chainRun (fun x => x % 2 == 0) (fun x => x * x) (2 + extra) 5 0
      = some ([0, 4, 16, 36, 64], 9) := by
  induction extra with
  | zero => decide
  | succ e ih => exact RustSeq.chainRun_fuel_mono ih

/-- C6: `fold(init, f)` over an empty sequence returns `init` unchanged, and
`reduce(f)` over an empty sequence returns the explicit "no value" outcome
(`none`), never a default — in particular for the repo's `(1..=0)` demo range,
which is empty. -/
theorem fold_reduce_empty (α β : Type) (init : β) (f : β → α → β) (g : α → α → α) :
    RustSeq.fold init f ([] : List α) = init ∧
    RustSeq.reduce g ([] : List α) = none ∧
    RustSeq.rangeInclusive 1 0 = [] ∧
    RustSeq.reduce (fun a x => a + x) (RustSeq.rangeInclusive 1 0) = none :=
  ⟨rfl, rfl, rfl, rfl⟩

/-- C7 (map fusion): collecting after `map(f)` then `map(g)` equals collecting
after the single `map(|x| g(f(x)))`, for every finite sequence. -/
theorem map_fusion (α β γ : Type) (f : α → β) (g : β → γ) (l : List α) :
    RustSeq.collect (RustSeq.map g (RustSeq.map f l))
      = RustSeq.collect (RustSeq.map (fun x => g (f x)) l) := by
  unfold RustSeq.collect
  induction l with
  | nil => rfl
  | cons x xs ih => simp [RustSeq.map, ih]

namespace RustSeq

/-- Modelled from the spec: `windows(n)` is not in src/ (only the demo caller
is); for a finite source of length `L` it produces `max(0, L-n+1)` overlapping
slices of length `n`, sliding by one each step, and produces nothing when
`n = 0` or `n > L`. -/
def windows (n : Nat) : List α → List (List α)
  | [] => []
  | x :: xs =>
    if (x :: xs).length < n ∨ n = 0 then []
    else (x :: xs).take n :: windows n xs

/-- Positional characterization of `windows`. -/
theorem windows_get? (n : Nat) (hn : n ≠ 0) :
    ∀ (i : Nat) (l : List α),
      (windows n l).get? i
        = if i + n ≤ l.length then some ((l.drop i).take n) else none := by
  intro i
  induction i with
  | zero =>
      intro l
      cases l with
      | nil =>
          simp only [windows, List.get?_nil]
          rw [if_neg (by simp only [List.length_nil]; omega)]
      | cons x xs =>
          rw [windows]
          simp only [List.length_cons]
          by_cases hlen : xs.length + 1 < n ∨ n = 0
          · rw [if_pos hlen]
            simp only [List.get?_nil]
            rw [if_neg (by omega)]
          · rw [if_neg hlen]
            push_neg at hlen
            simp only [List.get?_cons_zero]
            rw [if_pos (by omega), List.drop_zero]
  | succ i ih =>
      intro l
      cases l with
      | nil =>
          simp only [windows, List.get?_nil]
          rw [if_neg (by simp only [List.length_nil]; omega)]
      | cons x xs =>
          rw [windows]
          simp only [List.length_cons]
          by_cases hlen : xs.length + 1 < n ∨ n = 0
          · rw [if_pos hlen]
            simp only [List.get?_nil]
            rw [if_neg (by omega)]
          · rw [if_neg hlen]
            push_neg at hlen
            simp only [List.get?_cons_succ]
            rw [ih xs, List.drop_succ_cons]
            by_cases hc : i + n ≤ xs.length
            · rw [if_pos hc, if_pos (by omega)]
            · rw [if_neg hc, if_neg (by omega)]

end RustSeq

/-- C4: for a finite source of length `L` and `1 ≤ n ≤ L`, `windows(n)` yields
exactly `L - n + 1` results, each of length `n`; the `i`-th window consists of
the source elements at positions `i` through `i+n-1`, so consecutive windows
overlap in `n - 1` elements; for `n > L` it produces nothing. -/
theorem windows_spec (α : Type) (l : List α) (n : Nat) (h1 : 1 ≤ n) :
    (n ≤ l.length →
      (RustSeq.windows n l).length = l.length - n + 1 ∧
      (∀ i, i + n ≤ l.length →
        (RustSeq.windows n l).get? i = some ((l.drop i).take n)) ∧
      (∀ w, w ∈ RustSeq.windows n l → w.length = n) ∧
      (∀ i w w', (RustSeq.windows n l).get? i = some w →
        (RustSeq.windows n l).get? (i + 1) = some w' →
        w.drop 1 = w'.take (n - 1))) ∧
    (l.length < n → RustSeq.windows n l = []) := by
  have hn : n ≠ 0 := by omega
  constructor
  · intro hnl
    refine ⟨?_, ?_, ?_, ?_⟩
    · have hnone := RustSeq.windows_get? n hn (l.length - n + 1) l
      rw [if_neg (by omega)] at hnone
      have hsome := RustSeq.windows_get? n hn (l.length - n) l
      rw [if_pos (by omega)] at hsome
      have hub : (RustSeq.windows n l).length ≤ l.length - n + 1 :=
        List.get?_eq_none.mp hnone
      have hlb : l.length - n < (RustSeq.windows n l).length := by
        by_contra hcon
        push_neg at hcon
        rw [List.get?_eq_none.mpr hcon] at hsome
        exact Option.noConfusion hsome
      omega
    · intro i hi
      rw [RustSeq.windows_get? n hn i l, if_pos hi]
    · intro w hw
      obtain ⟨i, hi⟩ := List.mem_iff_get?.mp hw
      rw [RustSeq.windows_get? n hn i l] at hi
      by_cases hc : i + n ≤ l.length
      · rw [if_pos hc] at hi
        injection hi with hi
        rw [← hi, List.length_take, List.length_drop]
        omega
      · rw [if_neg hc] at hi
        exact Option.noConfusion hi
    · intro i w w' hw hw'
      rw [RustSeq.windows_get? n hn i l] at hw
      rw [RustSeq.windows_get? n hn (i + 1) l] at hw'
      by_cases hc : i + 1 + n ≤ l.length
      · rw [if_pos (by omega)] at hw
        rw [if_pos hc] at hw'
        injection hw with hw
        injection hw' with hw'
        rw [← hw, ← hw']
        rw [List.drop_take, List.drop_drop, List.take_take]
        rw [Nat.min_eq_left (by omega)]
      · rw [if_neg hc] at hw'
        exact Option.noConfusion hw'
  · intro hlt
    cases l with
    | nil => rfl
    | cons x xs =>
        rw [RustSeq.windows]
        rw [if_pos (Or.inl hlt)]

/-- Witness for C4 over `[1, 2, 3, 4, 5]` with `n = 3`. -/
theorem windows_spec_witness :
    1 ≤ 3 ∧
    ((3 ≤ ([1, 2, 3, 4, 5] : List Nat).length →
      (RustSeq.windows 3 ([1, 2, 3, 4, 5] : List Nat)).length
          = ([1, 2, 3, 4, 5] : List Nat).length - 3 + 1 ∧
      (∀ i, i + 3 ≤ ([1, 2, 3, 4, 5] : List Nat).length →
        (RustSeq.windows 3 ([1, 2, 3, 4, 5] : List Nat)).get? i
          = some ((([1, 2, 3, 4, 5] : List Nat).drop i).take 3)) ∧
      (∀ w, w ∈ RustSeq.windows 3 ([1, 2, 3, 4, 5] : List Nat) → w.length = 3) ∧
      (∀ i w w', (RustSeq.windows 3 ([1, 2, 3, 4, 5] : List Nat)).get? i = some w →
        (RustSeq.windows 3 ([1, 2, 3, 4, 5] : List Nat)).get? (i + 1) = some w' →
        w.drop 1 = w'.take (3 - 1))) ∧
    (([1, 2, 3, 4, 5] : List Nat).length < 3 →
      RustSeq.windows 3 ([1, 2, 3, 4, 5] : List Nat) = [])) :=
  ⟨by decide, windows_spec Nat [1, 2, 3, 4, 5] 3 (by decide)⟩

namespace RustSeq

/-- Modelled from the spec: `chunks(n)` is not in src/ (only the demo caller
is); it partitions the source into consecutive, non-overlapping groups of size
`n`, the final group possibly shorter when the length is not a multiple of
`n`; `n = 0` is an invalid parameter (this model produces nothing). -/
def chunks (n : Nat) (l : List α) : List (List α) :=
  match l with
  | [] => []
  | x :: xs =>
    if n = 0 then []
    else (x :: xs.take (n - 1)) :: chunks n (xs.drop (n - 1))
termination_by l.length
decreasing_by
  simp only [List.length_cons, List.length_drop]
  omega

theorem chunks_nil (n : Nat) : chunks n ([] : List α) = [] := by
  rw [chunks]

theorem chunks_cons (n : Nat) (hn : n ≠ 0) (x : α) (xs : List α) :
    chunks n (x :: xs) = (x :: xs.take (n - 1)) :: chunks n (xs.drop (n - 1)) := by
  rw [chunks, if_neg hn]

/-- Positional characterization of `chunks`. -/
theorem chunks_get? (n : Nat) (hn : n ≠ 0) :
    ∀ (i : Nat) (l : List α),
      (chunks n l).get? i
        = if i * n < l.length then some ((l.drop (i * n)).take n) else none := by
  intro i
  induction i with
  | zero =>
      intro l
      cases l with
      | nil => simp [chunks_nil]
      | cons x xs =>
          rw [chunks_cons n hn]
          simp only [List.get?_cons_zero, Nat.zero_mul, List.drop_zero]
          rw [if_pos (by simp only [List.length_cons]; omega)]
          obtain ⟨m, rfl⟩ : ∃ m, n = m + 1 := ⟨n - 1, by omega⟩
          rw [List.take_succ_cons]
          simp only [Nat.add_sub_cancel]
  | succ i ih =>
      intro l
      cases l with
      | nil => simp [chunks_nil]
      | cons x xs =>
          obtain ⟨m, rfl⟩ : ∃ m, n = m + 1 := ⟨n - 1, by omega⟩
          rw [chunks_cons (m + 1) hn]
          simp only [List.get?_cons_succ, Nat.add_sub_cancel]
          rw [ih (xs.drop m)]
          simp only [List.length_drop, List.drop_drop]
          have hidx : (i + 1) * (m + 1) = m + i * (m + 1) + 1 := by ring
          rw [hidx, List.drop_succ_cons]
          simp only [List.length_cons]
          generalize i * (m + 1) = q
          by_cases hc : q < xs.length - m
          · rw [if_pos hc, if_pos (by omega)]
          · rw [if_neg hc, if_neg (by omega)]

theorem chunks_length_aux (n : Nat) (hn : n ≠ 0) :
    ∀ (L : Nat) (l : List α), l.length = L →
      (chunks n l).length = (l.length + n - 1) / n := by
  intro L
  induction L using Nat.strong_induction_on with
  | _ L ih =>
      intro l hL
      cases l with
      | nil =>
          simp only [chunks_nil, List.length_nil]
          rw [Nat.div_eq_of_lt (by omega)]
      | cons x xs =>
          simp only [List.length_cons] at hL
          rw [chunks_cons n hn]
          simp only [List.length_cons]
          rw [ih ((xs.drop (n - 1)).length)
                (by simp only [List.length_drop]; omega)
                (xs.drop (n - 1)) rfl]
          simp only [List.length_drop]
          by_cases hcase : xs.length + 1 ≤ n
          · have h0 : xs.length - (n - 1) = 0 := by omega
            rw [h0]
            rw [Nat.div_eq_of_lt (by omega)]
            rw [@Nat.div_eq_of_lt_le 1 n (xs.length + 1 + n - 1) (by omega) (by omega)]
          · have e1 : xs.length - (n - 1) + n - 1 = xs.length := by omega
            have e2 : xs.length + 1 + n - 1 = xs.length + n := by omega
            rw [e1, e2, Nat.add_div_right _ (by omega)]

theorem chunks_join_aux (n : Nat) (hn : n ≠ 0) :
    ∀ (L : Nat) (l : List α), l.length = L → (chunks n l).flatten = l := by
  intro L
  induction L using Nat.strong_induction_on with
  | _ L ih =>
      intro l hL
      cases l with
      | nil => simp [chunks_nil]
      | cons x xs =>
          simp only [List.length_cons] at hL
          rw [chunks_cons n hn]
          simp only [List.flatten_cons]
          rw [ih ((xs.drop (n - 1)).length)
                (by simp only [List.length_drop]; omega)
                (xs.drop (n - 1)) rfl]
          simp only [List.cons_append, List.take_append_drop]

theorem chunks_getLast_aux (n : Nat) (hn : n ≠ 0) :
    ∀ (L : Nat) (l : List α), l.length = L → L % n ≠ 0 →
      ((chunks n l).getLast?).map List.length = some (L % n) := by
  intro L
  induction L using Nat.strong_induction_on with
  | _ L ih =>
      intro l hL hmod
      cases l with
      | nil =>
          exfalso
          simp only [List.length_nil] at hL
          subst hL
          simp at hmod
      | cons x xs =>
          simp only [List.length_cons] at hL
          rw [chunks_cons n hn]
          cases hdrop : xs.drop (n - 1) with
          | nil =>
              have hxs : xs.length ≤ n - 1 := List.drop_eq_nil_iff.mp hdrop
              rw [chunks_nil]
              simp only [List.getLast?_singleton, Option.map_some', List.length_cons,
                List.length_take]
              have hcases : xs.length + 1 < n ∨ xs.length + 1 = n := by omega
              rcases hcases with hlt | heq
              · rw [← hL, Nat.mod_eq_of_lt (by omega)]
                congr 1
                omega
              · exfalso
                rw [← hL, ← heq] at hmod
                simp [Nat.mod_self] at hmod
          | cons y ys =>
              have hlen : n - 1 < xs.length := by
                by_contra hcon
                push_neg at hcon
                rw [List.drop_eq_nil_iff.mpr hcon] at hdrop
                exact List.noConfusion hdrop
              rw [chunks_cons n hn, List.getLast?_cons_cons,
                ← chunks_cons n hn]
              have hylen : (y :: ys).length = xs.length - (n - 1) := by
                rw [← hdrop, List.length_drop]
              have hsm : (y :: ys).length % n ≠ 0 := by
                rw [hylen]
                have hxl : xs.length - (n - 1) = (xs.length + 1) - n := by omega
                rw [hxl, ← Nat.mod_eq_sub_mod (by omega), hL]
                exact hmod
              rw [ih ((y :: ys).length)
                    (by rw [hylen]; omega)
                    (y :: ys) rfl hsm]
              congr 1
              rw [hylen]
              have hxl : xs.length - (n - 1) = (xs.length + 1) - n := by omega
              rw [hxl, ← Nat.mod_eq_sub_mod (by omega), hL]

end RustSeq

/-- C5: for a finite source of length `L` and `n ≥ 1`, `chunks(n)` yields
exactly `⌈L/n⌉` consecutive non-overlapping groups (the `i`-th is the source
slice starting at `i*n`), every group except possibly the last has length `n`,
the last has length `L mod n` when `L` is not a multiple of `n`, and
concatenating the groups in order reconstructs the original sequence. -/
theorem chunks_spec (α : Type) (l : List α) (n : Nat) (h1 : 1 ≤ n) :
    (RustSeq.chunks n l).length = (l.length + n - 1) / n ∧
    (RustSeq.chunks n l).flatten = l ∧
    (∀ i c, (RustSeq.chunks n l).get? i = some c →
      c = (l.drop (i * n)).take n ∧
      0 < c.length ∧ c.length ≤ n ∧
      (i + 1 < (RustSeq.chunks n l).length → c.length = n)) ∧
    (l.length % n ≠ 0 →
      ((RustSeq.chunks n l).getLast?).map List.length = some (l.length % n)) := by
  have hn : n ≠ 0 := by omega
  refine ⟨RustSeq.chunks_length_aux n hn l.length l rfl,
    RustSeq.chunks_join_aux n hn l.length l rfl, ?_,
    fun hmod => RustSeq.chunks_getLast_aux n hn l.length l rfl hmod⟩
  intro i c hc
  rw [RustSeq.chunks_get? n hn i l] at hc
  by_cases hcond : i * n < l.length
  · rw [if_pos hcond] at hc
    injection hc with hc
    refine ⟨hc.symm, ?_, ?_, ?_⟩
    · rw [← hc, List.length_take, List.length_drop]
      generalize hq : i * n = q
      rw [hq] at hcond
      omega
    · rw [← hc, List.length_take, List.length_drop]
      omega
    · intro hlast
      have hne : (RustSeq.chunks n l).get? (i + 1) ≠ none := by
        rw [Ne, List.get?_eq_none]
        omega
      rw [RustSeq.chunks_get? n hn (i + 1) l] at hne
      by_cases hcond2 : (i + 1) * n < l.length
      · have hmul : (i + 1) * n = i * n + n := by ring
        rw [hmul] at hcond2
        rw [← hc, List.length_take, List.length_drop]
        generalize hq : i * n = q
        rw [hq] at hcond2
        omega
      · rw [if_neg hcond2] at hne
        exact absurd rfl hne
  · rw [if_neg hcond] at hc
    exact Option.noConfusion hc

/-- Witness for C5 over `[1, 2, 3, 4, 5]` with `n = 2`. -/
theorem chunks_spec_witness :
    1 ≤ 2 ∧
    ((RustSeq.chunks 2 ([1, 2, 3, 4, 5] : List Nat)).length
        = (([1, 2, 3, 4, 5] : List Nat).length + 2 - 1) / 2 ∧
    (RustSeq.chunks 2 ([1, 2, 3, 4, 5] : List Nat)).flatten = [1, 2, 3, 4, 5] ∧
    (∀ i c, (RustSeq.chunks 2 ([1, 2, 3, 4, 5] : List Nat)).get? i = some c →
      c = (([1, 2, 3, 4, 5] : List Nat).drop (i * 2)).take 2 ∧
      0 < c.length ∧ c.length ≤ 2 ∧
      (i + 1 < (RustSeq.chunks 2 ([1, 2, 3, 4, 5] : List Nat)).length →
        c.length = 2)) ∧
    (([1, 2, 3, 4, 5] : List Nat).length % 2 ≠ 0 →
      ((RustSeq.chunks 2 ([1, 2, 3, 4, 5] : List Nat)).getLast?).map List.length
        = some (([1, 2, 3, 4, 5] : List Nat).length % 2))) :=
  ⟨by decide, chunks_spec Nat [1, 2, 3, 4, 5] 2 (by decide)⟩

/-- `trait Plugin { fn name(&self) -> &str; fn execute(&self); }` from
`10_trait_objects.rs`.  A type-erased implementer is modelled by its
observable behaviour behind the capability interface: the string `name()`
returns and the line `execute()` prints. -/
structure Plugin where
  name : String
  execute : String
deriving DecidableEq, Repr

/-- `LoggerPlugin` as a `Plugin` implementer. -/
def LoggerPlugin : Plugin := ⟨"Logger", "[Logger] Logging data..."⟩

/-- `MetricsPlugin` as a `Plugin` implementer. -/
def MetricsPlugin : Plugin := ⟨"Metrics", "[Metrics] Collecting metrics..."⟩

/-- `struct PluginManager { plugins: Vec<Box<dyn Plugin>> }`. -/
structure PluginManager where
  plugins : List Plugin
deriving DecidableEq, Repr

/-- `PluginManager::new()`. -/
def PluginManager.new : PluginManager := ⟨[]⟩

/-- `PluginManager::register(plugin)` — `self.plugins.push(plugin)` appends at
the end, keeping everything already stored (duplicates included). -/
def PluginManager.register (m : PluginManager) (p : Plugin) : PluginManager :=
  ⟨m.plugins ++ [p]⟩

/-- A whole sequence of `register` calls, in order. -/
def PluginManager.registerAll (m : PluginManager) (ps : List Plugin) : PluginManager :=
  ps.foldl PluginManager.register m

/-- `PluginManager::run_all()` — iterates the stored plugins in order and for
each one prints `Running plugin: {name()}` and calls `execute()`; the returned
trace is the pair of observable events per plugin, in invocation order. -/
def PluginManager.run_all (m : PluginManager) : List (String × String) :=
  m.plugins.map (fun p => ("Running plugin: " ++ p.name, p.execute))

theorem PluginManager.registerAll_plugins (ps : List Plugin) :
    ∀ m : PluginManager, (PluginManager.registerAll m ps).plugins
      = m.plugins ++ ps := by
  induction ps with
  | nil => intro m; simp [PluginManager.registerAll]
  | cons p ps ih =>
      intro m
      rw [PluginManager.registerAll, List.foldl_cons,
        ← PluginManager.registerAll, ih]
      simp [PluginManager.register]

/-- C8: every registered implementer is kept — duplicates and duplicate labels
included — and `run_all` invokes each registered implementer's capability
methods exactly once, in exactly registration order: after any sequence of
`register` calls the stored list is that sequence, and the `run_all` trace has
exactly one entry per registered plugin, in the same order. -/
theorem plugin_manager_register_run_all (ps : List Plugin) :
    (PluginManager.registerAll PluginManager.new ps).plugins = ps ∧
    PluginManager.run_all (PluginManager.registerAll PluginManager.new ps)
      = ps.map (fun p => ("Running plugin: " ++ p.name, p.execute)) := by
  have h : (PluginManager.registerAll PluginManager.new ps).plugins = ps := by
    rw [PluginManager.registerAll_plugins ps PluginManager.new]
    simp [PluginManager.new]
  exact ⟨h, by rw [PluginManager.run_all, h]⟩
